import Mathlib

/-!
Verification of the retrieval-and-orchestration core of the AlphaAgent demo
(`app-demo`): the text chunker, the ticker detector, the deterministic
financial calculators and policy threshold check, the extraction loop of the
index builder, and the cosine-similarity search over the loaded index.

Each Python function of the source is embedded as a Lean definition over
exact rationals/reals (floating point is idealised as `ℝ`), strings and
lists; Python dicts are embedded as association lists so that key
presence/absence is faithfully tracked.
-/

namespace AlphaAgent

/-! ## Chunker — `_chunk_text` in `app-demo/indexer.py`

Python reference:
```
text = " ".join(text.split())  # Normalize whitespace
if not text: return []
chunks = []; i = 0
while i < len(text):
    chunks.append(text[i : i + chunk_chars])
    if i + chunk_chars >= len(text): break
    i += max(1, chunk_chars - overlap)
return chunks
```
-/

/-- Helper for `splitWs`: scan the characters, accumulating the current
word (reversed) in `acc` and emitting it at each whitespace boundary. -/
def splitWsAux : List Char → List Char → List (List Char)
  | [], acc => if acc = [] then [] else [acc.reverse]
  | c :: cs, acc =>
      if c.isWhitespace then
        if acc = [] then splitWsAux cs [] else acc.reverse :: splitWsAux cs []
      else splitWsAux cs (c :: acc)

/-- `str.split()` with no argument: the maximal runs of non-whitespace
characters, all whitespace dropped. -/
def splitWs (cs : List Char) : List (List Char) := splitWsAux cs []

/-- `" ".join(text.split())`: whitespace runs collapsed to single spaces,
leading and trailing whitespace removed. -/
def normWs (cs : List Char) : List Char :=
  List.intercalate [' '] (splitWs cs)

/-- The `while` loop of `_chunk_text`, starting at offset `i` into the
normalized text `t`: append `t[i : i+w]`, stop once the window reaches the
end of the text, otherwise advance by `max 1 (w - o)`. -/
def chunkFrom (t : List Char) (w o i : ℕ) : List (List Char) :=
  if _h : i < t.length then
    ((t.drop i).take w) ::
      (if t.length ≤ i + w then []
       else chunkFrom t w o (i + max 1 (w - o)))
  else []
termination_by t.length - i
decreasing_by
  have h1 : 1 ≤ max 1 (w - o) := le_max_left _ _
  omega

/-- `_chunk_text(text, chunk_chars, overlap)`: normalize whitespace, return
no chunks on an empty normalized text, otherwise run the chunking loop from
offset 0. -/
def chunkText (t : List Char) (chunk_chars overlap : ℕ) : List (List Char) :=
  let text := normWs t
  if text.isEmpty then [] else chunkFrom text chunk_chars overlap 0

lemma chunkFrom_getD {t : List Char} {w o : ℕ} (ho : o < w) :
    ∀ i, ∀ k, k < (chunkFrom t w o i).length →
      (chunkFrom t w o i).getD k [] = (t.drop (i + k * (w - o))).take w := by
  intro i
  induction i using chunkFrom.induct t w o with
  | case1 x hx ih =>
      intro k hk
      have hmax : max 1 (w - o) = w - o := by omega
      rw [chunkFrom] at hk ⊢
      by_cases hb : t.length ≤ x + w
      · simp only [dif_pos hx, if_pos hb, List.length_cons, List.length_nil] at hk
        interval_cases k
        simp [hx, hb]
      · simp only [dif_pos hx, if_neg hb] at hk ⊢
        match k with
        | 0 => simp
        | k + 1 =>
            simp only [List.length_cons, Nat.add_lt_add_iff_right] at hk
            simp only [List.getD_cons_succ]
            rw [ih k hk, hmax]
            congr 2
            ring
  | case2 x hx =>
      intro k hk
      rw [chunkFrom] at hk
      simp [dif_neg hx] at hk

lemma chunkFrom_full {t : List Char} {w o : ℕ} (ho : o < w) :
    ∀ i, ∀ k, k + 1 < (chunkFrom t w o i).length →
      i + k * (w - o) + w < t.length := by
  intro i
  induction i using chunkFrom.induct t w o with
  | case1 x hx ih =>
      intro k hk
      have hmax : max 1 (w - o) = w - o := by omega
      rw [chunkFrom] at hk
      by_cases hb : t.length ≤ x + w
      · simp [dif_pos hx, if_pos hb] at hk
      · simp only [dif_pos hx, if_neg hb, List.length_cons,
          Nat.add_lt_add_iff_right] at hk
        match k with
        | 0 => omega
        | k + 1 =>
            have := ih k hk
            rw [hmax] at this
            have harith : x + (w - o) + k * (w - o) = x + (k + 1) * (w - o) := by ring
            omega
  | case2 x hx =>
      intro k hk
      rw [chunkFrom] at hk
      simp [dif_neg hx] at hk

lemma chunkFrom_length_le {t : List Char} {w o : ℕ} :
    ∀ i, (chunkFrom t w o i).length ≤ t.length - i := by
  intro i
  induction i using chunkFrom.induct t w o with
  | case1 x hx ih =>
      rw [chunkFrom]
      have h1 : 1 ≤ max 1 (w - o) := le_max_left _ _
      by_cases hb : t.length ≤ x + w
      · simp [dif_pos hx, if_pos hb]; omega
      · simp only [dif_pos hx, if_neg hb, List.length_cons]
        omega
  | case2 x hx => rw [chunkFrom]; simp [dif_neg hx]

lemma chunkFrom_ne_nil {t : List Char} {w o i : ℕ} (hi : i < t.length) :
    chunkFrom t w o i ≠ [] := by
  rw [chunkFrom]
  simp [dif_pos hi]

lemma normWs_of_all_ws {t : List Char} (h : ∀ c ∈ t, c.isWhitespace) :
    normWs t = [] := by
  have hsplit : splitWs t = [] := by
    rw [splitWs]
    induction t with
    | nil => rfl
    | cons c cs ih =>
        have hc : c.isWhitespace := h c (by simp)
        rw [splitWsAux, if_pos hc, if_pos rfl]
        exact ih (fun x hx => h x (by simp [hx]))
  rw [normWs, hsplit]
  rfl

/-- C7: for `window_chars > 0` and `0 ≤ overlap < window_chars`, `_chunk_text`
first collapses whitespace runs to single spaces (`normWs`) and then returns
the windows of the normalized text starting at `0, s, 2s, ...` with stride
`s = window_chars - overlap`; every non-final window has length exactly
`window_chars` (the final one may be shorter, being a `take`), and an empty
or all-whitespace input yields no chunks rather than an error. -/
theorem chunk_text_windows (t : List Char) (w o : ℕ) (hw : 0 < w) (ho : o < w) :
    (∀ k, k < (chunkText t w o).length →
        (chunkText t w o).getD k [] = ((normWs t).drop (k * (w - o))).take w) ∧
    (∀ k, k + 1 < (chunkText t w o).length →
        ((chunkText t w o).getD k []).length = w) ∧
    (chunkText t w o = [] ↔ normWs t = []) ∧
    ((∀ c ∈ t, c.isWhitespace) → chunkText t w o = []) := by
  refine ⟨?_, ?_, ?_, ?_⟩
  · intro k hk
    rw [chunkText] at hk ⊢
    by_cases he : (normWs t).isEmpty
    · simp [he] at hk
    · simp only [he, if_neg, Bool.false_eq_true, not_false_eq_true, if_false] at hk ⊢
      have := chunkFrom_getD ho 0 k hk
      simpa using this
  · intro k hk
    rw [chunkText] at hk ⊢
    by_cases he : (normWs t).isEmpty
    · simp [he] at hk
    · simp only [he, Bool.false_eq_true, if_false] at hk ⊢
      have hfull := chunkFrom_full ho 0 k hk
      have hget := chunkFrom_getD (t := normWs t) ho 0 k (by omega)
      rw [hget]
      simp only [Nat.zero_add] at hfull ⊢
      rw [List.length_take, List.length_drop]
      omega
  · rw [chunkText]
    by_cases he : (normWs t).isEmpty
    · simp [he]
      exact List.isEmpty_iff.mp he
    · simp only [he, Bool.false_eq_true, if_false]
      have hne : normWs t ≠ [] := fun hnil => he (by simp [hnil])
      have h0 : 0 < (normWs t).length := List.length_pos.mpr hne
      exact ⟨fun hc => absurd hc (chunkFrom_ne_nil h0), fun hc => absurd hc hne⟩
  · intro hws
    rw [chunkText]
    simp [normWs_of_all_ws hws]

/-- Witness for C7 at the concrete input `"a  b\ncd e"`, `window_chars = 4`,
`overlap = 1`. -/
theorem chunk_text_windows_witness :
    0 < 4 ∧ 1 < 4 ∧
    ((∀ k, k < (chunkText "a  b\ncd e".toList 4 1).length →
        (chunkText "a  b\ncd e".toList 4 1).getD k [] =
          ((normWs "a  b\ncd e".toList).drop (k * (4 - 1))).take 4) ∧
     (∀ k, k + 1 < (chunkText "a  b\ncd e".toList 4 1).length →
        ((chunkText "a  b\ncd e".toList 4 1).getD k []).length = 4) ∧
     (chunkText "a  b\ncd e".toList 4 1 = [] ↔ normWs "a  b\ncd e".toList = []) ∧
     ((∀ c ∈ "a  b\ncd e".toList, c.isWhitespace) →
        chunkText "a  b\ncd e".toList 4 1 = [])) :=
  ⟨by decide, by decide,
    chunk_text_windows "a  b\ncd e".toList 4 1 (by decide) (by decide)⟩

/-- C10: for every text and all window/overlap parameters — including
`overlap ≥ chunk_chars`, where the documented precondition is violated — the
chunking loop terminates (the model is a total function, well-founded on the
remaining text because the stride is clamped to `max 1 (chunk_chars -
overlap) ≥ 1`) and returns a finite list of at most `(normWs t).length`
chunks. -/
theorem chunk_text_terminating_length_bound (t : List Char) (w o : ℕ) :
    (chunkText t w o).length ≤ (normWs t).length := by
  rw [chunkText]
  by_cases he : (normWs t).isEmpty
  · simp [he]
  · simp only [he, Bool.false_eq_true, if_false]
    have := chunkFrom_length_le (t := normWs t) (w := w) (o := o) 0
    omega

/-! ## Ticker detection — `detect_tickers` in `app-demo/agent.py`

Python reference:
```
TICKERS = ["ALPH", "BETA", "GAMM"]
def detect_tickers(text):
    up = text.upper()
    found = []
    for t in TICKERS:
        if re.search(rf"\b{re.escape(t)}\b", up):
            found.append(t)
    return found
```
`str.upper` and the regex word class `\w` are modelled on the ASCII
alphabet (the registry and the demo corpus are ASCII). -/

/-- The fixed registry of known tickers. -/
def TICKERS : List (List Char) := ["ALPH".toList, "BETA".toList, "GAMM".toList]

/-- A word character in the sense of the regex boundary `\b`: a letter, a
digit or an underscore. -/
def isWordChar (c : Char) : Bool := c.isAlphanum || c = '_'

/-- `w` matches at position `i` of `t` with a word boundary on each side
(for a pattern `w` made of word characters, as every ticker is). -/
def wordAt (t w : List Char) (i : ℕ) : Bool :=
  ((t.drop i).take w.length == w) &&
  (i == 0 || !isWordChar (t.getD (i - 1) ' ')) &&
  (decide (t.length ≤ i + w.length) || !isWordChar (t.getD (i + w.length) ' '))

/-- `re.search(rf"\b{t}\b", up) is not None`: some position matches. -/
def hasWordMatch (t w : List Char) : Bool :=
  (List.range (t.length + 1)).any (fun i => wordAt t w i)

/-- `detect_tickers`: keep, in registry order, the tickers that occur as
whole words in the uppercased query. -/
def detect_tickers (text : List Char) : List (List Char) :=
  let up := text.map Char.toUpper
  TICKERS.filter (fun t => hasWordMatch up t)

/-- Specification-side reading of a whole-word (word-boundary) occurrence:
`w` appears at some offset, not preceded and not followed by a word
character. -/
def OccursAsWholeWord (t w : List Char) : Prop :=
  ∃ i, (t.drop i).take w.length = w ∧
    (i = 0 ∨ isWordChar (t.getD (i - 1) ' ') = false) ∧
    (t.length ≤ i + w.length ∨ isWordChar (t.getD (i + w.length) ' ') = false)

lemma hasWordMatch_iff {t w : List Char} (hw : w ≠ []) :
    hasWordMatch t w = true ↔ OccursAsWholeWord t w := by
  rw [hasWordMatch, List.any_eq_true]
  constructor
  · rintro ⟨i, _, hi⟩
    simp only [wordAt, Bool.and_eq_true, beq_iff_eq, Bool.or_eq_true,
      Bool.not_eq_true', decide_eq_true_eq, Nat.beq_eq_true_eq] at hi
    exact ⟨i, hi.1.1, hi.1.2, hi.2⟩
  · rintro ⟨i, h1, h2, h3⟩
    refine ⟨i, ?_, ?_⟩
    · rw [List.mem_range]
      by_contra hlt
      have : t.length ≤ i := by omega
      rw [List.drop_eq_nil_of_le this] at h1
      simp only [List.take_nil] at h1
      exact hw h1.symm
    · simp only [wordAt, Bool.and_eq_true, beq_iff_eq, Bool.or_eq_true,
        Bool.not_eq_true', decide_eq_true_eq, Nat.beq_eq_true_eq]
      exact ⟨⟨h1, h2⟩, h3⟩

/-- C6: `detect_tickers` returns exactly the registry tickers that occur as
case-insensitive whole-word (word-boundary) tokens of the query — never
substring matches inside longer words — in registry order (the result is a
sublist of the registry). At the spec's test input, registry ticker `ALPH`
is not matched inside `ALPHABET` but is matched as the standalone word; and
a query naming `BETA` before `alph` still yields the registry order
`[ALPH, BETA]`, not first-occurrence order. -/
theorem detect_tickers_whole_word :
    (∀ text : List Char,
       (∀ w, w ∈ detect_tickers text ↔
          w ∈ TICKERS ∧ OccursAsWholeWord (text.map Char.toUpper) w) ∧
       (detect_tickers text).Sublist TICKERS) ∧
    detect_tickers "compare ALPHABET and ALPH".toList = ["ALPH".toList] ∧
    detect_tickers "BETA versus alph".toList = ["ALPH".toList, "BETA".toList] := by
  refine ⟨fun text => ⟨fun w => ?_, List.filter_sublist _⟩, by decide, by decide⟩
  rw [detect_tickers, List.mem_filter]
  constructor
  · rintro ⟨hmem, hmatch⟩
    have hnil : w ≠ [] := by
      have hm := hmem
      simp only [TICKERS, List.mem_cons, List.not_mem_nil, or_false] at hm
      rcases hm with h | h | h <;> subst h <;> decide
    exact ⟨hmem, (hasWordMatch_iff hnil).mp hmatch⟩
  · rintro ⟨hmem, hocc⟩
    have hnil : w ≠ [] := by
      have hm := hmem
      simp only [TICKERS, List.mem_cons, List.not_mem_nil, or_false] at hm
      rcases hm with h | h | h <;> subst h <;> decide
    exact ⟨hmem, (hasWordMatch_iff hnil).mpr hocc⟩

/-! ## Calculator — `skills/financial_math.py`

Each function returns a Python dict of display strings; it is embedded as an
association list so that the presence or absence of each key is tracked
faithfully. Display formatting (`:+.2f` and the like) is abstracted by the
`vfmt` constructor, which records the surrounding template (with `_` for
each interpolation) together with the exact interpolated values. -/

/-- A value of a calculator result dict. -/
inductive CVal where
  | vstr : String → CVal
  | vfmt : String → List (String ⊕ ℝ) → CVal

/-- A calculator result dict: ordered key/value pairs. -/
abbrev CalcDict := List (String × CVal)

/-- `calculate_yoy_variance(current, prior)`. -/
noncomputable def calculate_yoy_variance (current prior : ℝ) : CalcDict :=
  if prior = 0 then
    [("formula", .vstr "((current - prior) / prior) × 100"),
     ("inputs", .vfmt "current=_, prior=_" [.inr current, .inr prior]),
     ("result", .vstr "Error: Division by zero (prior period value is 0)"),
     ("interpretation", .vstr "Cannot calculate YoY variance with zero baseline.")]
  else
    let variance := ((current - prior) / prior) * 100
    let direction :=
      if variance > 0 then "increase" else if variance < 0 then "decrease" else "no change"
    [("formula", .vstr "((current - prior) / prior) × 100"),
     ("inputs", .vfmt "current=_, prior=_" [.inr current, .inr prior]),
     ("result", .vfmt "_%" [.inr variance]),
     ("absolute_change", .vfmt "_" [.inr (current - prior)]),
     ("direction", .vstr direction),
     ("interpretation", .vfmt "A _% _ from _ to _."
        [.inr |variance|, .inl direction, .inr prior, .inr current])]

/-- `calculate_margin(numerator, denominator, margin_type)`. Note that the
division-by-zero branch returns only `formula` and `result` — no `inputs`
key — exactly as in the source. -/
noncomputable def calculate_margin (numerator denominator : ℝ)
    (margin_type : String) : CalcDict :=
  if denominator = 0 then
    [("formula", .vstr (margin_type ++ " / Revenue × 100")),
     ("result", .vstr "Error: Division by zero.")]
  else
    let margin := (numerator / denominator) * 100
    let health :=
      if margin > 20 then "healthy" else if margin > 10 then "moderate" else "concerning"
    [("formula", .vstr (margin_type ++ " / Revenue × 100")),
     ("inputs", .vfmt "_=_, Revenue=_" [.inl margin_type, .inr numerator, .inr denominator]),
     ("result", .vfmt "_%" [.inr margin]),
     ("assessment", .vfmt "_ margin of _% is considered _ for capital markets."
        [.inl margin_type, .inr margin, .inl health])]

/-- `calculate_leverage(net_debt, ebitda)`. The division-by-zero branch,
like the margin one, returns only `formula` and `result`. -/
noncomputable def calculate_leverage (net_debt ebitda : ℝ) : CalcDict :=
  if ebitda = 0 then
    [("formula", .vstr "Net Debt / EBITDA"),
     ("result", .vstr "Error: Division by zero (EBITDA is 0).")]
  else
    let ratio := net_debt / ebitda
    let risk :=
      if ratio < 1.5 then "low"
      else if ratio < 2.5 then "moderate"
      else if ratio < 3.5 then "elevated"
      else "high"
    [("formula", .vstr "Net Debt / EBITDA"),
     ("inputs", .vfmt "Net Debt=_, EBITDA=_" [.inr net_debt, .inr ebitda]),
     ("result", .vfmt "_x" [.inr ratio]),
     ("risk_level", .vstr risk),
     ("interpretation", .vfmt "Leverage of _x is _. Industry threshold is typically 2.5x."
        [.inr ratio, .inl risk])]

/-- `check_policy_threshold(metric_name, value, threshold, direction)`. -/
noncomputable def check_policy_threshold (metric_name : String) (value threshold : ℝ)
    (direction : String) : CalcDict :=
  let violated : Bool :=
    if direction = "above" then decide (value > threshold) else decide (value < threshold)
  [("metric", .vstr metric_name),
   ("value", .vfmt "_" [.inr value]),
   ("threshold", .vfmt "_" [.inr threshold]),
   ("direction", .vfmt "must not be _ threshold" [.inl direction]),
   ("status", .vstr (if violated then "FLAG" else "PASS")),
   ("detail",
     if violated then
       .vfmt "⚠️ POLICY VIOLATION: _ (_) exceeds threshold (_). Requires management review per Trade Surveillance Policy §4."
         [.inl metric_name, .inr value, .inr threshold]
     else
       .vfmt "✅ PASS: _ (_) is within policy limits (_)."
         [.inl metric_name, .inr value, .inr threshold])]

/-- C3 counterexample: at the concrete input `x = 1`, the division-by-zero
results of `calculate_margin` and `calculate_leverage` contain no `inputs`
key at all, contradicting the claim that all three calculators include the
raw inputs on the error path. -/
theorem margin_leverage_zero_path_lack_inputs :
    (calculate_margin 1 0 "EBITDA").lookup "inputs" = none ∧
    (calculate_leverage 1 0).lookup "inputs" = none := by
  constructor <;> simp [calculate_margin, calculate_leverage, List.lookup]

/-- C3 (amended): on a zero divisor none of the three calculators raises
(each is a total function returning a dict); each returns its formula
string and a descriptive division-by-zero error string in `result`; the
raw inputs are included by `calculate_yoy_variance`, while
`calculate_margin` and `calculate_leverage` omit the `inputs` key on this
path. -/
theorem calculators_zero_divisor_structured (x : ℝ) (mt : String) :
    ((calculate_yoy_variance x 0).lookup "result" =
        some (.vstr "Error: Division by zero (prior period value is 0)") ∧
     (calculate_yoy_variance x 0).lookup "formula" =
        some (.vstr "((current - prior) / prior) × 100") ∧
     (calculate_yoy_variance x 0).lookup "inputs" =
        some (.vfmt "current=_, prior=_" [.inr x, .inr 0])) ∧
    ((calculate_margin x 0 mt).lookup "result" =
        some (.vstr "Error: Division by zero.") ∧
     (calculate_margin x 0 mt).lookup "formula" =
        some (.vstr (mt ++ " / Revenue × 100")) ∧
     (calculate_margin x 0 mt).lookup "inputs" = none) ∧
    ((calculate_leverage x 0).lookup "result" =
        some (.vstr "Error: Division by zero (EBITDA is 0).") ∧
     (calculate_leverage x 0).lookup "formula" =
        some (.vstr "Net Debt / EBITDA") ∧
     (calculate_leverage x 0).lookup "inputs" = none) := by
  refine ⟨⟨?_, ?_, ?_⟩, ⟨?_, ?_, ?_⟩, ⟨?_, ?_, ?_⟩⟩ <;>
    simp [calculate_yoy_variance, calculate_margin, calculate_leverage, List.lookup]

/-- C5: `check_policy_threshold` returns status FLAG exactly when
(`direction = "above"` and `value > threshold`) or (`direction ≠ "above"`
and `value < threshold`); in particular, for direction `"above"` and any
`ε > 0`, value `T + ε` is FLAG, value `T - ε` is PASS, and value exactly
`T` is PASS. -/
theorem check_policy_threshold_flag_iff (name : String) (v T : ℝ)
    (direction : String) (ε : ℝ) (hε : 0 < ε) :
    ((check_policy_threshold name v T direction).lookup "status" =
        some (.vstr "FLAG") ↔
      (direction = "above" ∧ v > T) ∨ (direction ≠ "above" ∧ v < T)) ∧
    (check_policy_threshold name (T + ε) T "above").lookup "status" =
      some (.vstr "FLAG") ∧
    (check_policy_threshold name (T - ε) T "above").lookup "status" =
      some (.vstr "PASS") ∧
    (check_policy_threshold name T T "above").lookup "status" =
      some (.vstr "PASS") := by
  refine ⟨?_, ?_, ?_, ?_⟩
  · simp only [check_policy_threshold, List.lookup]
    by_cases hd : direction = "above"
    · by_cases hv : v > T <;> simp [hd, hv]
    · by_cases hv : v < T <;> simp [hd, hv]
  · simp [check_policy_threshold, List.lookup, show T < T + ε by linarith]
  · simp [check_policy_threshold, List.lookup, show ¬ (T < T - ε) by linarith]
  · simp [check_policy_threshold, List.lookup]

/-- Witness for C5 at the spec's scenario: metric `leverage_ratio`,
value 2.8, threshold 2.5, direction `above`, `ε = 1`. -/
theorem check_policy_threshold_flag_iff_witness :
    (0:ℝ) < 1 ∧
    (((check_policy_threshold "leverage_ratio" 2.8 2.5 "above").lookup "status" =
        some (.vstr "FLAG") ↔
      ("above" = "above" ∧ (2.8:ℝ) > 2.5) ∨ ("above" ≠ "above" ∧ (2.8:ℝ) < 2.5)) ∧
    (check_policy_threshold "leverage_ratio" ((2.5:ℝ) + 1) 2.5 "above").lookup "status" =
      some (.vstr "FLAG") ∧
    (check_policy_threshold "leverage_ratio" ((2.5:ℝ) - 1) 2.5 "above").lookup "status" =
      some (.vstr "PASS") ∧
    (check_policy_threshold "leverage_ratio" 2.5 2.5 "above").lookup "status" =
      some (.vstr "PASS")) :=
  ⟨by norm_num,
   check_policy_threshold_flag_iff "leverage_ratio" 2.8 2.5 "above" 1 (by norm_num)⟩

/-! ## Quant step leverage branch — `run_query` in `app-demo/agent.py`

Python reference:
```
if "NetDebt_to_EBITDA" in metrics_num:
    lev = calculate_leverage(
        metrics_num.get("NetDebt_to_EBITDA", 0) * metrics_num.get("EBITDA_TTM", 1),
        metrics_num.get("EBITDA_TTM", 1),
    )
```
-/

/-- The leverage branch of the orchestrator's Quant step: reconstruct an
absolute net debt as `ratio × EBITDA` and feed it back into the leverage
formula. `none` when the metric is absent (the branch is skipped). -/
noncomputable def quantLeverage (metrics_num : List (String × ℝ)) : Option CalcDict :=
  if (metrics_num.lookup "NetDebt_to_EBITDA").isSome then
    some (calculate_leverage
      (((metrics_num.lookup "NetDebt_to_EBITDA").getD 0) *
        ((metrics_num.lookup "EBITDA_TTM").getD 1))
      ((metrics_num.lookup "EBITDA_TTM").getD 1))
  else none

/-- C8: when the loaded numeric metrics contain `NetDebt_to_EBITDA = r` and
`EBITDA_TTM = e` with `e ≠ 0`, the Quant step invokes the leverage
calculation with `net_debt = r × e` and `ebitda = e`, and the computed
ratio in the result equals the loaded ratio `r` exactly — the re-derivation
is circular. -/
theorem quant_leverage_circular (m : List (String × ℝ)) (r e : ℝ)
    (hr : m.lookup "NetDebt_to_EBITDA" = some r)
    (he : m.lookup "EBITDA_TTM" = some e) (hne : e ≠ 0) :
    quantLeverage m = some (calculate_leverage (r * e) e) ∧
    (calculate_leverage (r * e) e).lookup "result" =
      some (.vfmt "_x" [.inr r]) := by
  constructor
  · rw [quantLeverage, hr, he]
    simp
  · rw [calculate_leverage, if_neg hne]
    simp [List.lookup, mul_div_assoc, div_self hne]

/-- Witness for C8 with metrics `NetDebt_to_EBITDA = 2`, `EBITDA_TTM = 4`. -/
theorem quant_leverage_circular_witness :
    ([("NetDebt_to_EBITDA", (2:ℝ)), ("EBITDA_TTM", 4)].lookup "NetDebt_to_EBITDA"
        = some 2) ∧
    ([("NetDebt_to_EBITDA", (2:ℝ)), ("EBITDA_TTM", 4)].lookup "EBITDA_TTM"
        = some 4) ∧
    (4:ℝ) ≠ 0 ∧
    (quantLeverage [("NetDebt_to_EBITDA", (2:ℝ)), ("EBITDA_TTM", 4)] =
        some (calculate_leverage (2 * 4) 4) ∧
      (calculate_leverage ((2:ℝ) * 4) 4).lookup "result" =
        some (.vfmt "_x" [.inr 2])) :=
  ⟨by simp [List.lookup], by simp [List.lookup], by norm_num,
   quant_leverage_circular [("NetDebt_to_EBITDA", 2), ("EBITDA_TTM", 4)] 2 4
     (by simp [List.lookup]) (by simp [List.lookup]) (by norm_num)⟩

/-! ## Index builder extraction loop — `build_index` in `app-demo/indexer.py`

Python reference (lines 104–115):
```
chunks = []
for f in _iter_files(data_path):
    if f.suffix.lower() == ".pdf":
        raw = _read_pdf(f)
    else:
        raw = _read_xlsx(f)
    doc_id = f.name
    for idx, ch in enumerate(_chunk_text(raw, chunk_chars, chunk_overlap)):
        chunks.append(Chunk(doc_id=doc_id, chunk_id=idx, text=ch, source_path=str(f)))
```
There is no `try`/`except` around the extractor calls. -/

/-- A document handed to the index builder: its file name together with the
outcome of the source-type-specific extractor (`_read_pdf`/`_read_xlsx` are
external collaborators; an exception they raise is `.error`). -/
structure Doc where
  name : String
  extract : Except String (List Char)

/-- A chunk record accumulated by `build_index` before embedding. -/
structure BChunk where
  doc_id : String
  chunk_id : ℕ
  text : List Char
deriving DecidableEq

/-- The read-and-chunk loop of `build_index`: each document is extracted
and chunked in order. A failing extraction is not caught anywhere in
`build_index`, so it propagates and the loop aborts with that error. -/
def buildChunks (docs : List Doc) (chunk_chars chunk_overlap : ℕ) :
    Except String (List BChunk) :=
  match docs with
  | [] => .ok []
  | d :: rest =>
      match d.extract with
      | .error e => .error e
      | .ok raw =>
          match buildChunks rest chunk_chars chunk_overlap with
          | .error e => .error e
          | .ok tail =>
              .ok (((chunkText raw chunk_chars chunk_overlap).enum.map
                  (fun p => ⟨d.name, p.1, p.2⟩)) ++ tail)

/-- C4 (code divergence, at the spec-required behavior): with a document
set whose first document fails extraction and whose second parses fine,
the build loop aborts with the propagated extractor error — the failure is
not recorded and the remaining document is not indexed — while the same
second document alone is chunked normally. -/
theorem build_index_aborts_on_extraction_failure :
    buildChunks
      [⟨"bad.pdf", .error "PdfReadError: could not parse"⟩,
       ⟨"good.pdf", .ok "hello world".toList⟩] 8 2
      = .error "PdfReadError: could not parse" ∧
    buildChunks [⟨"good.pdf", .ok "hello world".toList⟩] 8 2
      = .ok [⟨"good.pdf", 0, "hello wo".toList⟩, ⟨"good.pdf", 1, "world".toList⟩] := by
  have hnorm : normWs "hello world".toList = "hello world".toList := by decide
  have hchunks : chunkText "hello world".toList 8 2
      = ["hello wo".toList, "world".toList] := by
    rw [chunkText]
    simp only [hnorm]
    rw [if_neg (by decide)]
    rw [chunkFrom, chunkFrom]
    norm_num
  constructor
  · rfl
  · rw [buildChunks]
    simp only [buildChunks, hchunks]
    rfl

/-! ## Vector index and similarity search — `load_index` / `query_index` in
`app-demo/indexer.py`

Python reference:
```
# load_index
norms = np.linalg.norm(mat, axis=1, keepdims=True) + 1e-12
mat = mat / norms
# query_index
q = q / (np.linalg.norm(q) + 1e-12)
scores = matrix @ q
idxs = np.argsort(-scores)[:top_k]
out = []
for i in idxs:
    rec = dict(records[int(i)])
    rec.pop("embedding", None)
    rec["score"] = float(scores[int(i)])
    out.append(rec)
```
-/

/-- Row/query dot product (`matrix @ q` row-wise). -/
def dotProduct (u v : List ℝ) : ℝ := (List.zipWith (fun a b => a * b) u v).sum

/-- `np.linalg.norm(v)`. -/
noncomputable def l2norm (v : List ℝ) : ℝ := Real.sqrt (dotProduct v v)

/-- The epsilon added to every norm before dividing, guarding the all-zero
vector. -/
noncomputable def normEps : ℝ := 1e-12

/-- `v / (np.linalg.norm(v) + 1e-12)`. -/
noncomputable def l2normalize (v : List ℝ) : List ℝ :=
  v.map (fun x => x / (l2norm v + normEps))

/-- A value stored in a JSONL index record. -/
inductive RVal where
  | rstr : String → RVal
  | rnat : ℕ → RVal
  | rvec : List ℝ → RVal
  | rnum : ℝ → RVal

/-- A parsed JSONL index record (a Python dict), as ordered key/value
pairs. -/
abbrev IndexRec := List (String × RVal)

/-- `rec["embedding"]` as read by `load_index`. -/
def embeddingOf (r : IndexRec) : List ℝ :=
  match r.lookup "embedding" with
  | some (RVal.rvec v) => v
  | _ => []

/-- The normalized in-memory matrix built by `load_index`: one L2-normalized
row per record. -/
noncomputable def loadMatrix (recs : List IndexRec) : List (List ℝ) :=
  recs.map (fun r => l2normalize (embeddingOf r))

/-- `scores = matrix @ q` with the query normalized the same way. -/
noncomputable def queryScores (recs : List IndexRec) (qvec : List ℝ) : List ℝ :=
  (loadMatrix recs).map (fun row => dotProduct row (l2normalize qvec))

/-- Insert index `i` into an index list sorted by strictly descending
score-first order: `i` goes before the first entry with a strictly smaller
score. -/
noncomputable def insertDescBy (s : List ℝ) (i : ℕ) : List ℕ → List ℕ
  | [] => [i]
  | j :: rest =>
      if s.getD j 0 < s.getD i 0 then i :: j :: rest
      else j :: insertDescBy s i rest

/-- `np.argsort(-scores)`: a permutation of `0, ..., n-1` ordered by
descending score. The source calls `np.argsort` with its default
(unstable) sort kind, so the order among equal scores is not specified by
the source; this model fixes the stable order for definiteness, and every
theorem below uses only tie-independent consequences (length, membership,
descending sortedness). -/
noncomputable def argsortDesc (s : List ℝ) : List ℕ :=
  (List.range s.length).foldl (fun acc i => insertDescBy s i acc) []

/-- `rec.pop("embedding", None)` on a fresh copy of the record. -/
def popEmbedding (r : IndexRec) : IndexRec :=
  r.filter (fun kv => kv.1 ≠ "embedding")

/-- Python dict assignment `rec[k] = v`: overwrite in place if the key
exists, else append. -/
def dictSet (r : IndexRec) (k : String) (v : RVal) : IndexRec :=
  if (r.lookup k).isSome then
    r.map (fun kv => if kv.1 = k then (k, v) else kv)
  else r ++ [(k, v)]

/-- `query_index(records, matrix, top_k)` with the query embedding `qvec`
returned by the embedding gateway: rank all records by normalized dot
product, keep the first `top_k` ranked indices, and project each selected
record by dropping its embedding and adding its score. -/
noncomputable def query_index (recs : List IndexRec) (qvec : List ℝ)
    (top_k : ℕ) : List IndexRec :=
  let scores := queryScores recs qvec
  let idxs := (argsortDesc scores).take top_k
  idxs.map (fun i =>
    dictSet (popEmbedding (recs.getD i [])) "score" (RVal.rnum (scores.getD i 0)))

/-- The `score` field of a returned record, read back as a real. -/
def scoreNum (r : IndexRec) : ℝ :=
  match r.lookup "score" with
  | some (RVal.rnum x) => x
  | _ => 0

lemma dotProduct_eq_sum_range :
    ∀ u v : List ℝ, dotProduct u v =
      ∑ i ∈ Finset.range (min u.length v.length), u.getD i 0 * v.getD i 0 := by
  intro u
  induction u with
  | nil => intro v; simp [dotProduct]
  | cons a u ih =>
      intro v
      cases v with
      | nil => simp [dotProduct]
      | cons b v =>
          have hmin : min (a :: u).length (b :: v).length = min u.length v.length + 1 := by
            simp [Nat.succ_min_succ]
          have hcons : dotProduct (a :: u) (b :: v) = a * b + dotProduct u v := by
            simp [dotProduct]
          rw [hcons, hmin, Finset.sum_range_succ', ih v]
          simp [add_comm]

lemma dotProduct_self_eq (v : List ℝ) :
    dotProduct v v = ∑ i ∈ Finset.range v.length, v.getD i 0 ^ 2 := by
  rw [dotProduct_eq_sum_range]
  simp [sq]

lemma dotProduct_self_nonneg (v : List ℝ) : 0 ≤ dotProduct v v := by
  rw [dotProduct_self_eq]
  exact Finset.sum_nonneg fun i _ => sq_nonneg _

lemma l2norm_nonneg (v : List ℝ) : 0 ≤ l2norm v := Real.sqrt_nonneg _

lemma abs_dotProduct_le (u v : List ℝ) :
    |dotProduct u v| ≤ l2norm u * l2norm v := by
  set m := min u.length v.length with hm
  have hsub : ∀ w : List ℝ, m ≤ w.length →
      Real.sqrt (∑ i ∈ Finset.range m, w.getD i 0 ^ 2) ≤ l2norm w := by
    intro w hw
    rw [l2norm, dotProduct_self_eq]
    apply Real.sqrt_le_sqrt
    exact Finset.sum_le_sum_of_subset_of_nonneg
      (Finset.range_subset.2 hw) (fun i _ _ => sq_nonneg _)
  have hu : Real.sqrt (∑ i ∈ Finset.range m, u.getD i 0 ^ 2) ≤ l2norm u :=
    hsub u (by omega)
  have hv : Real.sqrt (∑ i ∈ Finset.range m, v.getD i 0 ^ 2) ≤ l2norm v :=
    hsub v (by omega)
  have hcs :
      |∑ i ∈ Finset.range m, u.getD i 0 * v.getD i 0| ≤
        Real.sqrt (∑ i ∈ Finset.range m, u.getD i 0 ^ 2) *
          Real.sqrt (∑ i ∈ Finset.range m, v.getD i 0 ^ 2) := by
    rw [abs_le]
    constructor
    · have := Real.sum_mul_le_sqrt_mul_sqrt (Finset.range m)
        (fun i => -(u.getD i 0)) (fun i => v.getD i 0)
      simp only [neg_mul, Finset.sum_neg_distrib, neg_sq] at this
      linarith
    · exact Real.sum_mul_le_sqrt_mul_sqrt _ _ _
  rw [dotProduct_eq_sum_range, ← hm]
  calc |∑ i ∈ Finset.range m, u.getD i 0 * v.getD i 0|
      ≤ Real.sqrt (∑ i ∈ Finset.range m, u.getD i 0 ^ 2) *
          Real.sqrt (∑ i ∈ Finset.range m, v.getD i 0 ^ 2) := hcs
    _ ≤ l2norm u * l2norm v := by
        apply mul_le_mul hu hv (Real.sqrt_nonneg _)
        exact l2norm_nonneg u

lemma normEps_pos : 0 < normEps := by rw [normEps]; norm_num

lemma denom_pos (u : List ℝ) : 0 < l2norm u + normEps :=
  add_pos_of_nonneg_of_pos (l2norm_nonneg u) normEps_pos

lemma dotProduct_normalize (u v : List ℝ) :
    dotProduct (l2normalize u) (l2normalize v) =
      dotProduct u v / ((l2norm u + normEps) * (l2norm v + normEps)) := by
  rw [l2normalize, l2normalize, dotProduct, List.zipWith_map]
  have hmap : (List.zipWith (fun x y =>
      (x / (l2norm u + normEps)) * (y / (l2norm v + normEps))) u v) =
      (List.zipWith (fun a b => a * b) u v).map
        (fun z => z / ((l2norm u + normEps) * (l2norm v + normEps))) := by
    rw [List.map_zipWith]
    congr 1
    funext x y
    rw [div_mul_div_comm]
  rw [hmap]
  rw [dotProduct]
  simpa [div_eq_mul_inv] using
    (List.sum_map_mul_right (l := List.zipWith (fun a b => a * b) u v) (f := id)
      (r := ((l2norm u + normEps) * (l2norm v + normEps))⁻¹))

lemma abs_normalized_dot_le_one (u v : List ℝ) :
    |dotProduct (l2normalize u) (l2normalize v)| ≤ 1 := by
  rw [dotProduct_normalize, abs_div]
  have hpos : 0 < (l2norm u + normEps) * (l2norm v + normEps) :=
    mul_pos (denom_pos u) (denom_pos v)
  rw [abs_of_pos hpos, div_le_one hpos]
  calc |dotProduct u v| ≤ l2norm u * l2norm v := abs_dotProduct_le u v
    _ ≤ (l2norm u + normEps) * (l2norm v + normEps) :=
        mul_le_mul (by linarith [normEps_pos]) (by linarith [normEps_pos])
          (l2norm_nonneg v) (le_of_lt (denom_pos u))

lemma length_insertDescBy (s : List ℝ) (i : ℕ) :
    ∀ l : List ℕ, (insertDescBy s i l).length = l.length + 1 := by
  intro l
  induction l with
  | nil => rfl
  | cons j rest ih =>
      rw [insertDescBy]
      split
      · simp
      · simp [ih]

lemma mem_insertDescBy (s : List ℝ) (i : ℕ) :
    ∀ l : List ℕ, ∀ j, j ∈ insertDescBy s i l ↔ j = i ∨ j ∈ l := by
  intro l
  induction l with
  | nil => intro j; simp [insertDescBy]
  | cons a rest ih =>
      intro j
      rw [insertDescBy]
      split
      · simp [List.mem_cons]
      · simp only [List.mem_cons, ih j]
        tauto

lemma pairwise_insertDescBy (s : List ℝ) (i : ℕ) :
    ∀ l : List ℕ, l.Pairwise (fun a b => s.getD b 0 ≤ s.getD a 0) →
      (insertDescBy s i l).Pairwise (fun a b => s.getD b 0 ≤ s.getD a 0) := by
  intro l
  induction l with
  | nil => intro _; simp [insertDescBy]
  | cons a rest ih =>
      intro h
      rw [List.pairwise_cons] at h
      obtain ⟨ha, hrest⟩ := h
      rw [insertDescBy]
      split
      · rename_i hlt
        rw [List.pairwise_cons]
        refine ⟨?_, List.pairwise_cons.mpr ⟨ha, hrest⟩⟩
        intro b hb
        rcases List.mem_cons.mp hb with hba | hbr
        · subst hba; linarith
        · have := ha b hbr; linarith
      · rename_i hge
        rw [List.pairwise_cons]
        constructor
        · intro b hb
          rcases (mem_insertDescBy s i rest b).mp hb with hbi | hbr
          · subst hbi; linarith [not_lt.mp hge]
          · exact ha b hbr
        · exact ih hrest

lemma argsort_foldl_length (s : List ℝ) :
    ∀ (l : List ℕ) (acc : List ℕ),
      (l.foldl (fun acc i => insertDescBy s i acc) acc).length =
        acc.length + l.length := by
  intro l
  induction l with
  | nil => intro acc; simp
  | cons i rest ih =>
      intro acc
      simp only [List.foldl_cons, ih, length_insertDescBy, List.length_cons]
      omega

lemma argsort_foldl_mem (s : List ℝ) :
    ∀ (l : List ℕ) (acc : List ℕ) (j : ℕ),
      j ∈ l.foldl (fun acc i => insertDescBy s i acc) acc →
        j ∈ acc ∨ j ∈ l := by
  intro l
  induction l with
  | nil => intro acc j h; simp at h; exact Or.inl h
  | cons i rest ih =>
      intro acc j h
      simp only [List.foldl_cons] at h
      rcases ih _ j h with hacc | hrest
      · rcases (mem_insertDescBy s i acc j).mp hacc with hji | hja
        · subst hji; exact Or.inr (by simp)
        · exact Or.inl hja
      · exact Or.inr (by simp [hrest])

lemma argsort_foldl_pairwise (s : List ℝ) :
    ∀ (l : List ℕ) (acc : List ℕ),
      acc.Pairwise (fun a b => s.getD b 0 ≤ s.getD a 0) →
        (l.foldl (fun acc i => insertDescBy s i acc) acc).Pairwise
          (fun a b => s.getD b 0 ≤ s.getD a 0) := by
  intro l
  induction l with
  | nil => intro acc h; exact h
  | cons i rest ih =>
      intro acc h
      simp only [List.foldl_cons]
      exact ih _ (pairwise_insertDescBy s i acc h)

lemma length_argsortDesc (s : List ℝ) : (argsortDesc s).length = s.length := by
  rw [argsortDesc, argsort_foldl_length]
  simp

lemma mem_argsortDesc {s : List ℝ} {j : ℕ} (h : j ∈ argsortDesc s) :
    j < s.length := by
  rw [argsortDesc] at h
  rcases argsort_foldl_mem s _ _ _ h with hacc | hrange
  · simp at hacc
  · exact List.mem_range.mp hrange

lemma pairwise_argsortDesc (s : List ℝ) :
    (argsortDesc s).Pairwise (fun a b => s.getD b 0 ≤ s.getD a 0) :=
  argsort_foldl_pairwise s _ [] (by simp)

lemma lookup_cons_ite (a : String) (v : RVal) (rest : IndexRec) (k : String) :
    List.lookup k ((a, v) :: rest) = if k = a then some v else rest.lookup k := by
  rw [List.lookup_cons]
  by_cases h : k = a
  · simp [h]
  · simp [h, beq_eq_false_iff_ne.mpr h]

lemma popEmbedding_cons (a : String) (v : RVal) (rest : IndexRec) :
    popEmbedding ((a, v) :: rest) =
      if a = "embedding" then popEmbedding rest
      else (a, v) :: popEmbedding rest := by
  rw [popEmbedding, popEmbedding, List.filter_cons]
  by_cases h : a = "embedding" <;> simp [h]

lemma lookup_popEmbedding (r : IndexRec) (k : String) (hk : k ≠ "embedding") :
    (popEmbedding r).lookup k = r.lookup k := by
  induction r with
  | nil => rfl
  | cons kv rest ih =>
      obtain ⟨a, v⟩ := kv
      rw [popEmbedding_cons]
      by_cases ha : a = "embedding"
      · rw [if_pos ha, ih, lookup_cons_ite, if_neg (by rw [ha]; exact hk)]
      · rw [if_neg ha, lookup_cons_ite, lookup_cons_ite]
        split
        · rfl
        · exact ih

lemma lookup_popEmbedding_embedding (r : IndexRec) :
    (popEmbedding r).lookup "embedding" = none := by
  induction r with
  | nil => rfl
  | cons kv rest ih =>
      obtain ⟨a, v⟩ := kv
      rw [popEmbedding_cons]
      by_cases ha : a = "embedding"
      · rw [if_pos ha]; exact ih
      · rw [if_neg ha, lookup_cons_ite, if_neg (fun h => ha h.symm)]
        exact ih

lemma keys_popEmbedding (r : IndexRec) :
    "embedding" ∉ (popEmbedding r).map Prod.fst := by
  intro hmem
  rw [popEmbedding] at hmem
  rcases List.mem_map.mp hmem with ⟨kv, hkv, hfst⟩
  have := List.of_mem_filter hkv
  simp [hfst] at this

lemma lookup_map_replace_self (k : String) (v : RVal) :
    ∀ r : IndexRec, (r.lookup k).isSome →
      (r.map (fun kv => if kv.1 = k then (k, v) else kv)).lookup k = some v := by
  intro r
  induction r with
  | nil => intro h; simp at h
  | cons kv rest ih =>
      intro h
      obtain ⟨a, b⟩ := kv
      simp only [List.map_cons]
      by_cases ha : a = k
      · rw [if_pos ha, lookup_cons_ite, if_pos rfl]
      · rw [if_neg ha, lookup_cons_ite, if_neg (fun hh => ha hh.symm)]
        apply ih
        rwa [lookup_cons_ite, if_neg (fun hh => ha hh.symm)] at h

lemma lookup_map_replace_ne (k : String) (v : RVal) (k' : String) (hk : k' ≠ k) :
    ∀ r : IndexRec,
      (r.map (fun kv => if kv.1 = k then (k, v) else kv)).lookup k' =
        r.lookup k' := by
  intro r
  induction r with
  | nil => rfl
  | cons kv rest ih =>
      obtain ⟨a, b⟩ := kv
      simp only [List.map_cons]
      by_cases ha : a = k
      · rw [if_pos ha, lookup_cons_ite, lookup_cons_ite, if_neg hk,
          if_neg (by rw [ha]; exact hk)]
        exact ih
      · rw [if_neg ha, lookup_cons_ite, lookup_cons_ite]
        split
        · rfl
        · exact ih

lemma lookup_append_single_self (k : String) (v : RVal) :
    ∀ r : IndexRec, r.lookup k = none → (r ++ [(k, v)]).lookup k = some v := by
  intro r
  induction r with
  | nil => intro _; simp [lookup_cons_ite]
  | cons kv rest ih =>
      intro h
      obtain ⟨a, b⟩ := kv
      rw [lookup_cons_ite] at h
      rw [List.cons_append, lookup_cons_ite]
      split at h
      · simp at h
      · rw [if_neg (by assumption)]
        exact ih h

lemma lookup_append_single_ne (k : String) (v : RVal) (k' : String)
    (hk : k' ≠ k) :
    ∀ r : IndexRec, (r ++ [(k, v)]).lookup k' = r.lookup k' := by
  intro r
  induction r with
  | nil => simp [lookup_cons_ite, if_neg hk]
  | cons kv rest ih =>
      obtain ⟨a, b⟩ := kv
      rw [List.cons_append, lookup_cons_ite, lookup_cons_ite]
      split
      · rfl
      · exact ih

lemma lookup_dictSet_self (r : IndexRec) (k : String) (v : RVal) :
    (dictSet r k v).lookup k = some v := by
  rw [dictSet]
  split
  · exact lookup_map_replace_self k v r (by assumption)
  · exact lookup_append_single_self k v r
      (Option.not_isSome_iff_eq_none.mp (by assumption))

lemma lookup_dictSet_ne (r : IndexRec) (k : String) (v : RVal) (k' : String)
    (hk : k' ≠ k) : (dictSet r k v).lookup k' = r.lookup k' := by
  rw [dictSet]
  split
  · exact lookup_map_replace_ne k v k' hk r
  · exact lookup_append_single_ne k v k' hk r

lemma keys_dictSet (r : IndexRec) (k : String) (v : RVal) :
    (dictSet r k v).map Prod.fst = r.map Prod.fst ∨
      (dictSet r k v).map Prod.fst = r.map Prod.fst ++ [k] := by
  rw [dictSet]
  split
  · left
    rw [List.map_map]
    apply List.map_congr_left
    intro kv _
    by_cases h : kv.1 = k
    · simp [Function.comp, h]
    · simp [Function.comp, h]
  · right
    simp

lemma getD_mem_of_lt {l : List ℝ} {n : ℕ} (h : n < l.length) : l.getD n 0 ∈ l := by
  rw [List.getD_eq_getElem?_getD, List.getElem?_eq_getElem h]
  exact List.getElem_mem h

lemma queryScores_length (recs : List IndexRec) (q : List ℝ) :
    (queryScores recs q).length = recs.length := by
  simp [queryScores, loadMatrix]

lemma queryScores_getD_bound (recs : List IndexRec) (q : List ℝ) (i : ℕ) :
    -1 ≤ (queryScores recs q).getD i 0 ∧ (queryScores recs q).getD i 0 ≤ 1 := by
  by_cases hi : i < (queryScores recs q).length
  · have hmem := getD_mem_of_lt hi
    rw [queryScores, loadMatrix, List.map_map] at hmem
    rcases List.mem_map.mp hmem with ⟨r, _, hx⟩
    have hb := abs_normalized_dot_le_one (embeddingOf r) q
    rw [abs_le] at hb
    simp only [Function.comp] at hx
    rw [queryScores, loadMatrix, List.map_map, ← hx]
    exact hb
  · rw [List.getD_eq_getElem?_getD, List.getElem?_eq_none (by omega)]
    norm_num

lemma scoreNum_output (r : IndexRec) (x : ℝ) :
    scoreNum (dictSet (popEmbedding r) "score" (RVal.rnum x)) = x := by
  rw [scoreNum, lookup_dictSet_self]

/-- C1: for every loaded index of `n` records and every query embedding,
`query_index` returns exactly `min top_k n` records (a `top_k` beyond the
corpus size is clamped, no error), every returned record carries a
similarity score in `[-1, 1]`, and the returned scores are sorted in
descending order. -/
theorem query_index_count_bounds_sorted (recs : List IndexRec) (qvec : List ℝ)
    (top_k : ℕ) :
    (query_index recs qvec top_k).length = min top_k recs.length ∧
    ((query_index recs qvec top_k).map scoreNum).Forall
      (fun x => -1 ≤ x ∧ x ≤ 1) ∧
    ((query_index recs qvec top_k).map scoreNum).Pairwise (fun a b => b ≤ a) := by
  have hmap : (query_index recs qvec top_k).map scoreNum =
      ((argsortDesc (queryScores recs qvec)).take top_k).map
        (fun i => (queryScores recs qvec).getD i 0) := by
    rw [query_index]
    simp only [List.map_map]
    apply List.map_congr_left
    intro i _
    simp [Function.comp, scoreNum_output]
  refine ⟨?_, ?_, ?_⟩
  · rw [query_index]
    simp [List.length_take, length_argsortDesc, queryScores_length]
  · rw [hmap, List.forall_iff_forall_mem]
    intro x hx
    rcases List.mem_map.mp hx with ⟨i, _, hxi⟩
    rw [← hxi]
    exact queryScores_getD_bound recs qvec i
  · rw [hmap, List.pairwise_map]
    exact (pairwise_argsortDesc (queryScores recs qvec)).sublist
      (List.take_sublist _ _)

/-- C9: every record returned by `query_index` has had its raw `embedding`
field stripped (the key is absent and a lookup misses), carries the added
`score` field, and keeps every other field of the source record it projects
(the record at the ranked index). -/
theorem query_index_strips_embedding (recs : List IndexRec) (qvec : List ℝ)
    (top_k : ℕ) :
    (query_index recs qvec top_k).Forall (fun r =>
      "embedding" ∉ r.map Prod.fst ∧
      r.lookup "embedding" = none ∧
      (∃ x : ℝ, r.lookup "score" = some (RVal.rnum x)) ∧
      ∃ i, i < recs.length ∧
        ∀ k, k ≠ "embedding" → k ≠ "score" →
          r.lookup k = (recs.getD i []).lookup k) := by
  rw [List.forall_iff_forall_mem]
  intro r hr
  rw [query_index] at hr
  rcases List.mem_map.mp hr with ⟨i, hi, hri⟩
  have hilt : i < recs.length := by
    have hmem : i ∈ argsortDesc (queryScores recs qvec) :=
      (List.take_sublist _ _).subset hi
    have := mem_argsortDesc hmem
    rwa [queryScores_length] at this
  subst hri
  refine ⟨?_, ?_, ?_, i, hilt, ?_⟩
  · intro hmem
    rcases keys_dictSet (popEmbedding (recs.getD i [])) "score"
        (RVal.rnum ((queryScores recs qvec).getD i 0)) with hkeys | hkeys
    · rw [hkeys] at hmem
      exact keys_popEmbedding _ hmem
    · rw [hkeys, List.mem_append] at hmem
      rcases hmem with hmem | hmem
      · exact keys_popEmbedding _ hmem
      · simp at hmem
  · rw [lookup_dictSet_ne _ _ _ _ (by decide), lookup_popEmbedding_embedding]
  · exact ⟨_, lookup_dictSet_self _ _ _⟩
  · intro k hke hks
    rw [lookup_dictSet_ne _ _ _ _ hks, lookup_popEmbedding _ _ hke]
